import Mathlib

/-!
# The x86-64 `atomic64_t` operations of `arch/x86/include/asm/atomic64_64.h`

A shallow embedding of the 64-bit atomic cell and of every operation the header
defines on it.  A `long` / `s64` value is an `Int`; every C arithmetic expression
is reduced back into the signed 64-bit range by `wrap64` (the kernel is built
with wrapping signed arithmetic).  A cell is a record with the single field
`counter`; an operation takes the cell and returns its result together with the
cell afterwards.  The retry loops are modelled with a fuel argument that bounds
the number of loop iterations; the theorems show how much fuel is enough.
-/

namespace Atomic64

/-! ## Signed 64-bit values -/

/-- Smallest value of a `long` on x86-64. -/
def S64_MIN : Int := -9223372036854775808

/-- Largest value of a `long` on x86-64. -/
def S64_MAX : Int := 9223372036854775807

/-- Representable as a signed 64-bit integer. -/
def isS64 (x : Int) : Prop := S64_MIN ≤ x ∧ x ≤ S64_MAX

instance (x : Int) : Decidable (isS64 x) := by
  unfold isS64; exact inferInstance

/-- Two's-complement reduction of a mathematical integer to a signed 64-bit value. -/
def wrap64 (x : Int) : Int :=
  (x + 9223372036854775808) % 18446744073709551616 - 9223372036854775808

/-- The 64 bits of a signed value, read as an unsigned number. -/
def to_u64 (x : Int) : Nat := (x % 18446744073709551616).toNat

/-- C `a & b` on `long`. -/
def and64 (a b : Int) : Int := wrap64 (Int.ofNat (Nat.land (to_u64 a) (to_u64 b)))

/-- C `a | b` on `long`. -/
def or64 (a b : Int) : Int := wrap64 (Int.ofNat (Nat.lor (to_u64 a) (to_u64 b)))

/-- C `a ^ b` on `long`. -/
def xor64 (a b : Int) : Int := wrap64 (Int.ofNat (Nat.xor (to_u64 a) (to_u64 b)))

/-! ## The cell -/

/-- The 64-bit atomic type: `typedef struct { s64 counter; } atomic64_t`. -/
structure atomic64_t where
  counter : Int
deriving DecidableEq, Repr

/-- Macro `ATOMIC64_INIT(i)` is the initialiser `{ (i) }`. -/
def ATOMIC64_INIT (i : Int) : atomic64_t := { counter := i }

/-! ## Locked instructions and the helper macros of the headers not in this file -/

/-- The two condition flags the header tests after a locked instruction. -/
structure rflags where
  zf : Bool
  sf : Bool
deriving DecidableEq, Repr

/-- Flags that an arithmetic instruction sets from its 64-bit result. -/
def flags_of (r : Int) : rflags := { zf := decide (r = 0), sf := decide (r < 0) }

/-- Condition codes used in this header: `e` (zero flag set) and `s` (sign flag set). -/
inductive cc where
  | e
  | s
deriving DecidableEq, Repr

/-- Value of a condition code on given flags. -/
def cc.holds : cc → rflags → Bool
  | cc.e, f => f.zf
  | cc.s, f => f.sf

/-- The instruction `subq src, dst`: new destination and flags. -/
def subq (src dst : Int) : Int × rflags :=
  let r := wrap64 (dst - src)
  (r, flags_of r)

/-- The instruction `addq src, dst`: new destination and flags. -/
def addq (src dst : Int) : Int × rflags :=
  let r := wrap64 (dst + src)
  (r, flags_of r)

/-- The instruction `incq dst`. -/
def incq (dst : Int) : Int × rflags :=
  let r := wrap64 (dst + 1)
  (r, flags_of r)

/-- The instruction `decq dst`. -/
def decq (dst : Int) : Int × rflags :=
  let r := wrap64 (dst - 1)
  (r, flags_of r)

/-- The instruction `orq src, dst`. -/
def orq (src dst : Int) : Int × rflags :=
  let r := or64 dst src
  (r, flags_of r)

/-- The instruction `xorq src, dst`. -/
def xorq (src dst : Int) : Int × rflags :=
  let r := xor64 dst src
  (r, flags_of r)

/-- The instruction `andq src, dst`. -/
def andq (src dst : Int) : Int × rflags :=
  let r := and64 dst src
  (r, flags_of r)

/-- Modelled from the spec: `READ_ONCE` (linux/compiler.h is not among the sources) is the
atomic load of section 4.1, returning the current value. -/
def READ_ONCE (v : atomic64_t) : Int := v.counter

/-- Modelled from the spec: `WRITE_ONCE` (linux/compiler.h is not among the sources) is the
atomic store of section 4.1. -/
def WRITE_ONCE (_v : atomic64_t) (i : Int) : atomic64_t := { counter := i }

/-- Modelled from the spec: `GEN_BINARY_RMWcc` (asm/rmwcc.h is not among the sources) runs
the locked two-operand instruction on the cell and returns the named condition code of
its result, "performing the arithmetic and a boolean test as one indivisible step". -/
def GEN_BINARY_RMWcc (op : Int → Int → Int × rflags) (v : atomic64_t) (i : Int)
    (c : cc) : Bool × atomic64_t :=
  let r := op i v.counter
  (c.holds r.2, { counter := r.1 })

/-- Modelled from the spec: `GEN_UNARY_RMWcc` (asm/rmwcc.h is not among the sources) runs
the locked one-operand instruction on the cell and returns the named condition code of
its result. -/
def GEN_UNARY_RMWcc (op : Int → Int × rflags) (v : atomic64_t) (c : cc) :
    Bool × atomic64_t :=
  let r := op v.counter
  (c.holds r.2, { counter := r.1 })

/-- Modelled from the spec: `xadd` (asm/cmpxchg.h is not among the sources) is the
exchange-and-add behind `fetch_add`: it adds to the cell, wrapping, and returns "the
pre-operation value". -/
def xadd (v : atomic64_t) (inc : Int) : Int × atomic64_t :=
  (v.counter, { counter := wrap64 (v.counter + inc) })

/-- Modelled from the spec: `arch_cmpxchg` (asm/cmpxchg.h is not among the sources): "if the
cell currently equals expected, atomically sets it to new_value; in all cases returns the
value that was in the cell at the moment of the attempt". -/
def arch_cmpxchg (v : atomic64_t) (val_old val_new : Int) : Int × atomic64_t :=
  if v.counter = val_old then (v.counter, { counter := val_new })
  else (v.counter, v)

/-- Modelled from the spec: `try_cmpxchg` (asm/cmpxchg.h is not among the sources): a
compare-exchange that "returns a boolean success flag; on failure, writes the
actually-observed current value back into expected_inout".  The result is the flag, the
expected slot afterwards and the cell afterwards. -/
def try_cmpxchg (v : atomic64_t) (val_old val_new : Int) : Bool × Int × atomic64_t :=
  if v.counter = val_old then (true, val_old, { counter := val_new })
  else (false, v.counter, v)

/-- Modelled from the spec: `xchg` (asm/cmpxchg.h is not among the sources) "atomically
replaces the value, returns what was replaced". -/
def xchg (v : atomic64_t) (val_new : Int) : Int × atomic64_t :=
  (v.counter, { counter := val_new })

/-! ## The operations of the header -/

/-- Function `arch_atomic64_read`: `return READ_ONCE(v->counter)`. -/
def arch_atomic64_read (v : atomic64_t) : Int := READ_ONCE v

/-- Function `arch_atomic64_set`: `WRITE_ONCE(v->counter, i)`. -/
def arch_atomic64_set (v : atomic64_t) (i : Int) : atomic64_t := WRITE_ONCE v i

/-- Function `arch_atomic64_sub`: locked `subq i, v->counter`. -/
def arch_atomic64_sub (i : Int) (v : atomic64_t) : atomic64_t :=
  { counter := (subq i v.counter).1 }

/-- Function `arch_atomic64_add`: locked `addq i, v->counter`. -/
def arch_atomic64_add (i : Int) (v : atomic64_t) : atomic64_t :=
  { counter := (addq i v.counter).1 }

/-- Function `arch_atomic64_sub_and_test`: `GEN_BINARY_RMWcc(LOCK "subq", v->counter, i, e)`. -/
def arch_atomic64_sub_and_test (i : Int) (v : atomic64_t) : Bool × atomic64_t :=
  GEN_BINARY_RMWcc subq v i cc.e

/-- Function `arch_atomic64_inc`: locked `incq v->counter`. -/
def arch_atomic64_inc (v : atomic64_t) : atomic64_t :=
  { counter := (incq v.counter).1 }

/-- Function `arch_atomic64_dec`: locked `decq v->counter`. -/
def arch_atomic64_dec (v : atomic64_t) : atomic64_t :=
  { counter := (decq v.counter).1 }

/-- Function `arch_atomic64_dec_and_test`: `GEN_UNARY_RMWcc(LOCK "decq", v->counter, e)`. -/
def arch_atomic64_dec_and_test (v : atomic64_t) : Bool × atomic64_t :=
  GEN_UNARY_RMWcc decq v cc.e

/-- Function `arch_atomic64_inc_and_test`: `GEN_UNARY_RMWcc(LOCK "incq", v->counter, e)`. -/
def arch_atomic64_inc_and_test (v : atomic64_t) : Bool × atomic64_t :=
  GEN_UNARY_RMWcc incq v cc.e

/-- Function `arch_atomic64_add_negative`: `GEN_BINARY_RMWcc(LOCK "addq", v->counter, i, s)`. -/
def arch_atomic64_add_negative (i : Int) (v : atomic64_t) : Bool × atomic64_t :=
  GEN_BINARY_RMWcc addq v i cc.s

/-- Function `arch_atomic64_add_return`: `return xadd(&v->counter, +i) + i`. -/
def arch_atomic64_add_return (i : Int) (v : atomic64_t) : Int × atomic64_t :=
  let r := xadd v i
  (wrap64 (r.1 + i), r.2)

/-- Function `arch_atomic64_sub_return`: `return xadd(&v->counter, -i) - i`. -/
def arch_atomic64_sub_return (i : Int) (v : atomic64_t) : Int × atomic64_t :=
  let r := xadd v (wrap64 (-i))
  (wrap64 (r.1 - i), r.2)

/-- Function `arch_atomic64_fetch_add`: `return xadd(&v->counter, +i)`. -/
def arch_atomic64_fetch_add (i : Int) (v : atomic64_t) : Int × atomic64_t :=
  xadd v i

/-- Function `arch_atomic64_fetch_sub`: `return xadd(&v->counter, -i)`. -/
def arch_atomic64_fetch_sub (i : Int) (v : atomic64_t) : Int × atomic64_t :=
  xadd v (wrap64 (-i))

/-- Macro `arch_atomic64_inc_return(v)` is `arch_atomic64_add_return(1, (v))`. -/
def arch_atomic64_inc_return (v : atomic64_t) : Int × atomic64_t :=
  arch_atomic64_add_return 1 v

/-- Macro `arch_atomic64_dec_return(v)` is `arch_atomic64_sub_return(1, (v))`. -/
def arch_atomic64_dec_return (v : atomic64_t) : Int × atomic64_t :=
  arch_atomic64_sub_return 1 v

/-- Function `arch_atomic64_cmpxchg`: `return arch_cmpxchg(&v->counter, val_old, val_new)`. -/
def arch_atomic64_cmpxchg (v : atomic64_t) (val_old val_new : Int) : Int × atomic64_t :=
  arch_cmpxchg v val_old val_new

/-- Function `arch_atomic64_try_cmpxchg`: `return try_cmpxchg(&v->counter, val_old, val_new)`.
The result is the flag, `*val_old` afterwards and the cell afterwards. -/
def arch_atomic64_try_cmpxchg (v : atomic64_t) (val_old val_new : Int) :
    Bool × Int × atomic64_t :=
  try_cmpxchg v val_old val_new

/-- Function `arch_atomic64_xchg`: `return xchg(&v->counter, val_new)`. -/
def arch_atomic64_xchg (v : atomic64_t) (val_new : Int) : Int × atomic64_t :=
  xchg v val_new

/-- Loop of `arch_atomic64_add_unless`, entered with the local `val_old`:
`do { if (val_old == u) return false; } while (!try_cmpxchg(v, &val_old, val_old + i));
return true;`.  One unit of fuel is one pass through the loop body. -/
def add_unless_loop : Nat → atomic64_t → Int → Int → Int → Option (Bool × atomic64_t)
  | 0, _, _, _, _ => none
  | fuel + 1, v, val_old, i, u =>
    if val_old = u then some (false, v)
    else
      match arch_atomic64_try_cmpxchg v val_old (wrap64 (val_old + i)) with
      | (true, _, v1) => some (true, v1)
      | (false, val_old1, v1) => add_unless_loop fuel v1 val_old1 i u

/-- Function `arch_atomic64_add_unless`: `val_old = arch_atomic64_read(v)`, then the loop. -/
def arch_atomic64_add_unless (fuel : Nat) (v : atomic64_t) (i u : Int) :
    Option (Bool × atomic64_t) :=
  add_unless_loop fuel v (arch_atomic64_read v) i u

/-- Macro `arch_atomic64_inc_not_zero(v)` is `arch_atomic64_add_unless((v), 1, 0)`. -/
def arch_atomic64_inc_not_zero (fuel : Nat) (v : atomic64_t) : Option (Bool × atomic64_t) :=
  arch_atomic64_add_unless fuel v 1 0

/-- Loop of `arch_atomic64_dec_if_positive`, entered with the local `val_old`:
`do { val_new = val_old - 1; if (val_new < 0) break; }
while (!try_cmpxchg(v, &val_old, val_new)); return val_new;`. -/
def dec_if_positive_loop : Nat → atomic64_t → Int → Option (Int × atomic64_t)
  | 0, _, _ => none
  | fuel + 1, v, val_old =>
    let val_new := wrap64 (val_old - 1)
    if val_new < 0 then some (val_new, v)
    else
      match arch_atomic64_try_cmpxchg v val_old val_new with
      | (true, _, v1) => some (val_new, v1)
      | (false, val_old1, v1) => dec_if_positive_loop fuel v1 val_old1

/-- Function `arch_atomic64_dec_if_positive`: `val_old = arch_atomic64_read(v)`, then the
loop. -/
def arch_atomic64_dec_if_positive (fuel : Nat) (v : atomic64_t) : Option (Int × atomic64_t) :=
  dec_if_positive_loop fuel v (arch_atomic64_read v)

/-- Loop shared by `arch_atomic64_fetch_and`, `arch_atomic64_fetch_or` and
`arch_atomic64_fetch_xor`, with `f val` standing for `val & i`, `val | i` or `val ^ i`:
`do { } while (!try_cmpxchg(v, &val, f(val))); return val;`. -/
def fetch_op_loop (f : Int → Int) : Nat → atomic64_t → Int → Option (Int × atomic64_t)
  | 0, _, _ => none
  | fuel + 1, v, val =>
    match arch_atomic64_try_cmpxchg v val (f val) with
    | (true, val1, v1) => some (val1, v1)
    | (false, val1, v1) => fetch_op_loop f fuel v1 val1

/-- Function `arch_atomic64_fetch_and`: `val = arch_atomic64_read(v)`, then the loop with
`val & i`. -/
def arch_atomic64_fetch_and (fuel : Nat) (i : Int) (v : atomic64_t) :
    Option (Int × atomic64_t) :=
  fetch_op_loop (fun val => and64 val i) fuel v (arch_atomic64_read v)

/-- Function `arch_atomic64_fetch_or`: `val = arch_atomic64_read(v)`, then the loop with
`val | i`. -/
def arch_atomic64_fetch_or (fuel : Nat) (i : Int) (v : atomic64_t) :
    Option (Int × atomic64_t) :=
  fetch_op_loop (fun val => or64 val i) fuel v (arch_atomic64_read v)

/-- Function `arch_atomic64_fetch_xor`: `val = arch_atomic64_read(v)`, then the loop with
`val ^ i`. -/
def arch_atomic64_fetch_xor (fuel : Nat) (i : Int) (v : atomic64_t) :
    Option (Int × atomic64_t) :=
  fetch_op_loop (fun val => xor64 val i) fuel v (arch_atomic64_read v)

/-- Function `arch_atomic64_or`: locked `orq i, v->counter`. -/
def arch_atomic64_or (i : Int) (v : atomic64_t) : atomic64_t :=
  { counter := (orq i v.counter).1 }

/-- Function `arch_atomic64_xor`: locked `xorq i, v->counter`. -/
def arch_atomic64_xor (i : Int) (v : atomic64_t) : atomic64_t :=
  { counter := (xorq i v.counter).1 }

/-- Function `arch_atomic64_and`: locked `andq i, v->counter`. -/
def arch_atomic64_and (i : Int) (v : atomic64_t) : atomic64_t :=
  { counter := (andq i v.counter).1 }

/-! ## Scenarios: repeated calls, and calls under interference -/

/-- Cell after `k` consecutive calls of `arch_atomic64_dec_if_positive`, no other writer. -/
def dec_if_positive_calls (fuel : Nat) : Nat → atomic64_t → Option atomic64_t
  | 0, v => some v
  | k + 1, v =>
    match arch_atomic64_dec_if_positive fuel v with
    | none => none
    | some (_, v1) => dec_if_positive_calls fuel k v1

/-- Result and cell of the `k`-th consecutive call (`k` counted from 1) of
`arch_atomic64_dec_if_positive`, no other writer. -/
def dec_if_positive_kth (fuel k : Nat) (v : atomic64_t) : Option (Int × atomic64_t) :=
  match dec_if_positive_calls fuel (k - 1) v with
  | none => none
  | some v1 => arch_atomic64_dec_if_positive fuel v1

/-- One slot of a concurrent writer: it leaves the cell alone or overwrites it. -/
def interfere (w : Option Int) (v : atomic64_t) : atomic64_t :=
  match w with
  | none => v
  | some x => { counter := x }

/-- An access to the cell, as the cell sees it: the load of `arch_atomic64_read` with the
value it returned, a `try_cmpxchg` of the call that found another value than expected
(with the value it found, and no store), a `try_cmpxchg` of the call that stored (with the
value replaced and the value stored), and a store of the concurrent writer (likewise). -/
inductive cell_event where
  | load (seen : Int)
  | cas_fail (seen : Int)
  | cas_store (old new : Int)
  | overwrite (old new : Int)
deriving DecidableEq, Repr

/-- A cell together with the record of the accesses made to it, oldest first. -/
structure logged_cell where
  cell : atomic64_t
  log : List cell_event
deriving DecidableEq, Repr

/-- Function `arch_atomic64_read` on a recording cell: the value read, and the load
recorded. -/
def logged_read (m : logged_cell) : Int × logged_cell :=
  (arch_atomic64_read m.cell,
    { cell := m.cell, log := m.log ++ [cell_event.load (arch_atomic64_read m.cell)] })

/-- Function `arch_atomic64_try_cmpxchg` on a recording cell: the flag, `*val_old`
afterwards, and the cell, which records the store with the value it replaced, or the
failure with the value it found. -/
def logged_try_cmpxchg (m : logged_cell) (val_old val_new : Int) :
    Bool × Int × logged_cell :=
  match arch_atomic64_try_cmpxchg m.cell val_old val_new with
  | (true, val_old1, v1) =>
    (true, val_old1,
      { cell := v1, log := m.log ++ [cell_event.cas_store m.cell.counter v1.counter] })
  | (false, val_old1, v1) =>
    (false, val_old1, { cell := v1, log := m.log ++ [cell_event.cas_fail val_old1] })

/-- One slot of the concurrent writer on a recording cell: `interfere`, with the
overwrite recorded. -/
def interfere_logged (w : Option Int) (m : logged_cell) : logged_cell :=
  { cell := interfere w m.cell,
    log := match w with
      | none => m.log
      | some x => m.log ++ [cell_event.overwrite m.cell.counter x] }

/-- Loop of `arch_atomic64_add_unless` as in `add_unless_loop`, on a recording cell and with
a concurrent writer: the head of `env` is the writer's slot between the call's latest
observation of the cell and its next `try_cmpxchg`; once `env` is used up the writer is
silent. -/
def add_unless_env_loop :
    Nat → List (Option Int) → logged_cell → Int → Int → Int → Option (Bool × logged_cell)
  | 0, _, _, _, _, _ => none
  | fuel + 1, env, m, val_old, i, u =>
    if val_old = u then some (false, m)
    else
      match logged_try_cmpxchg (interfere_logged env.head?.join m) val_old
          (wrap64 (val_old + i)) with
      | (true, _, m1) => some (true, m1)
      | (false, val_old1, m1) => add_unless_env_loop fuel env.tail m1 val_old1 i u

/-- Function `arch_atomic64_add_unless` run against the writer schedule `env` on a cell
that starts with an empty record: the read of the cell, then the loop. -/
def add_unless_env (fuel : Nat) (env : List (Option Int)) (v : atomic64_t) (i u : Int) :
    Option (Bool × logged_cell) :=
  add_unless_env_loop fuel env (logged_read { cell := v, log := [] }).2
    (logged_read { cell := v, log := [] }).1 i u

/-- The stores of the call in a record, each as (value replaced, value stored). -/
def caller_stores : List cell_event → List (Int × Int)
  | [] => []
  | cell_event.cas_store o n :: l => (o, n) :: caller_stores l
  | _ :: l => caller_stores l

/-- The values the concurrent writer stored, in order. -/
def writer_values : List cell_event → List Int
  | [] => []
  | cell_event.overwrite _ n :: l => n :: writer_values l
  | _ :: l => writer_values l

/-- The number of `try_cmpxchg` attempts of the call in a record. -/
def attempts : List cell_event → Nat
  | [] => 0
  | cell_event.cas_fail _ :: l => attempts l + 1
  | cell_event.cas_store _ _ :: l => attempts l + 1
  | _ :: l => attempts l

/-- The value the call observed last in a record, `acc` if the record has no access of the
call. -/
def last_seen_from : Option Int → List cell_event → Option Int
  | acc, [] => acc
  | _, cell_event.load x :: l => last_seen_from (some x) l
  | _, cell_event.cas_fail x :: l => last_seen_from (some x) l
  | _, cell_event.cas_store o _ :: l => last_seen_from (some o) l
  | acc, cell_event.overwrite _ _ :: l => last_seen_from acc l

/-- The value the call observed last in a record. -/
def last_seen (l : List cell_event) : Option Int := last_seen_from none l

/-- The cell a record leads to from the cell `v`: every store is applied, and the record is
refused (`none`) if an observation or the value a store replaced is not the value the cell
holds at that point. -/
def replay : atomic64_t → List cell_event → Option atomic64_t
  | v, [] => some v
  | v, cell_event.load x :: l => if v.counter = x then replay v l else none
  | v, cell_event.cas_fail x :: l => if v.counter = x then replay v l else none
  | v, cell_event.cas_store o n :: l =>
    if v.counter = o then replay { counter := n } l else none
  | v, cell_event.overwrite o n :: l =>
    if v.counter = o then replay { counter := n } l else none

/-! ## Instrumented loops: the outcomes of the `try_cmpxchg` attempts -/

/-- Loop of `arch_atomic64_add_unless` as in `add_unless_loop`, which also lists the outcome
of every `try_cmpxchg` attempt it makes, in order. -/
def add_unless_loop_trace :
    Nat → atomic64_t → Int → Int → Int → Option ((Bool × atomic64_t) × List Bool)
  | 0, _, _, _, _ => none
  | fuel + 1, v, val_old, i, u =>
    if val_old = u then some ((false, v), [])
    else
      match arch_atomic64_try_cmpxchg v val_old (wrap64 (val_old + i)) with
      | (true, _, v1) => some ((true, v1), [true])
      | (false, val_old1, v1) =>
        (add_unless_loop_trace fuel v1 val_old1 i u).map (fun r => (r.1, false :: r.2))

/-- Function `arch_atomic64_add_unless` with the outcomes of its attempts. -/
def add_unless_trace (fuel : Nat) (v : atomic64_t) (i u : Int) :
    Option ((Bool × atomic64_t) × List Bool) :=
  add_unless_loop_trace fuel v (arch_atomic64_read v) i u

/-- Loop of `arch_atomic64_dec_if_positive` as in `dec_if_positive_loop`, which also lists
the outcome of every `try_cmpxchg` attempt it makes, in order. -/
def dec_if_positive_loop_trace :
    Nat → atomic64_t → Int → Option ((Int × atomic64_t) × List Bool)
  | 0, _, _ => none
  | fuel + 1, v, val_old =>
    let val_new := wrap64 (val_old - 1)
    if val_new < 0 then some ((val_new, v), [])
    else
      match arch_atomic64_try_cmpxchg v val_old val_new with
      | (true, _, v1) => some ((val_new, v1), [true])
      | (false, val_old1, v1) =>
        (dec_if_positive_loop_trace fuel v1 val_old1).map (fun r => (r.1, false :: r.2))

/-- Function `arch_atomic64_dec_if_positive` with the outcomes of its attempts. -/
def dec_if_positive_trace (fuel : Nat) (v : atomic64_t) :
    Option ((Int × atomic64_t) × List Bool) :=
  dec_if_positive_loop_trace fuel v (arch_atomic64_read v)

/-- Loop of the three fetch operations as in `fetch_op_loop`, which also lists the outcome
of every `try_cmpxchg` attempt it makes, in order. -/
def fetch_op_loop_trace (f : Int → Int) :
    Nat → atomic64_t → Int → Option ((Int × atomic64_t) × List Bool)
  | 0, _, _ => none
  | fuel + 1, v, val =>
    match arch_atomic64_try_cmpxchg v val (f val) with
    | (true, val1, v1) => some ((val1, v1), [true])
    | (false, val1, v1) =>
      (fetch_op_loop_trace f fuel v1 val1).map (fun r => (r.1, false :: r.2))

/-- Function `arch_atomic64_fetch_and` with the outcomes of its attempts. -/
def fetch_and_trace (fuel : Nat) (i : Int) (v : atomic64_t) :
    Option ((Int × atomic64_t) × List Bool) :=
  fetch_op_loop_trace (fun val => and64 val i) fuel v (arch_atomic64_read v)

/-- Function `arch_atomic64_fetch_or` with the outcomes of its attempts. -/
def fetch_or_trace (fuel : Nat) (i : Int) (v : atomic64_t) :
    Option ((Int × atomic64_t) × List Bool) :=
  fetch_op_loop_trace (fun val => or64 val i) fuel v (arch_atomic64_read v)

/-- Function `arch_atomic64_fetch_xor` with the outcomes of its attempts. -/
def fetch_xor_trace (fuel : Nat) (i : Int) (v : atomic64_t) :
    Option ((Int × atomic64_t) × List Bool) :=
  fetch_op_loop_trace (fun val => xor64 val i) fuel v (arch_atomic64_read v)

/-! ## Concurrent increments -/

/-- Where an execution context stands in its call of `arch_atomic64_inc`: before the
instruction, between the load and the store of `incq` (with the value loaded), or after
the instruction. -/
inductive inc_pc where
  | start
  | loaded (val : Int)
  | done
deriving DecidableEq, Repr

/-- The shared cell, the context that holds the lock on it (if any), and the position of
each context. -/
structure inc_machine where
  cell : atomic64_t
  owner : Option Nat
  pcs : List inc_pc
deriving DecidableEq, Repr

/-- A cell holding `v` and `N` contexts about to call `arch_atomic64_inc`. -/
def inc_machine_init (v : atomic64_t) (N : Nat) : inc_machine :=
  { cell := v, owner := none, pcs := List.replicate N inc_pc.start }

/-- Context `t` cannot access the cell: another context holds the lock. -/
def inc_waits (t : Nat) (m : inc_machine) : Bool :=
  match m.owner with
  | none => false
  | some s => decide (s ≠ t)

/-- One step of context `t`.  The instruction `incq` on a memory operand is a load of the
operand followed by a store of the incremented value, here what `arch_atomic64_inc` makes
of the value loaded.  With `lock` (the header writes `LOCK_PREFIX "incq %0"`) the context
holds the lock on the cell from its load to its store; without it nothing is held.  A
context that finds the cell locked by another one waits: its step changes nothing. -/
def inc_step (lock : Bool) (t : Nat) (m : inc_machine) : inc_machine :=
  if inc_waits t m then m
  else
    match m.pcs[t]? with
    | none => m
    | some inc_pc.start =>
      { cell := m.cell, owner := if lock then some t else none,
        pcs := m.pcs.set t (inc_pc.loaded m.cell.counter) }
    | some (inc_pc.loaded x) =>
      { cell := arch_atomic64_inc { counter := x }, owner := none,
        pcs := m.pcs.set t inc_pc.done }
    | some inc_pc.done => m

/-- The machine after the contexts have taken their steps in the order `sched`. -/
def run_inc_machine (lock : Bool) : List Nat → inc_machine → inc_machine
  | [], m => m
  | t :: rest, m => run_inc_machine lock rest (inc_step lock t m)

/-- Every call has finished. -/
def inc_all_done (m : inc_machine) : Bool :=
  m.pcs.all (fun p => decide (p = inc_pc.done))

/-- The number of calls that have finished. -/
def done_count : List inc_pc → Nat
  | [] => 0
  | inc_pc.done :: l => done_count l + 1
  | _ :: l => done_count l

/-- What holds of the machine with the lock at every moment: the cell holds the number of
finished calls; with the lock free no context is between its load and its store; with
the lock held its owner is, having loaded the value the cell still holds, and no other
context is. -/
def inc_inv (m : inc_machine) : Prop :=
  m.cell.counter = (done_count m.pcs : Int) ∧
  match m.owner with
  | none => ∀ (s : Nat) (x : Int), m.pcs[s]? ≠ some (inc_pc.loaded x)
  | some t => m.pcs[t]? = some (inc_pc.loaded m.cell.counter) ∧
      ∀ (s : Nat) (x : Int), s ≠ t → m.pcs[s]? ≠ some (inc_pc.loaded x)

/-- The contexts `0` to `n - 1` in turn, two steps each. -/
def inc_round : Nat → List Nat
  | 0 => []
  | n + 1 => inc_round n ++ [n, n]

/-- A continuation that finishes every call: the owner of the lock completes its store,
then every context takes two steps. -/
def inc_finish (m : inc_machine) : List Nat :=
  m.owner.toList ++ inc_round m.pcs.length

/-! ## Facts about the signed 64-bit range -/

theorem wrap64_of_isS64 (x : Int) (h : isS64 x) : wrap64 x = x := by
  unfold isS64 S64_MIN S64_MAX at h
  unfold wrap64
  omega

theorem wrap64_isS64 (x : Int) : isS64 (wrap64 x) := by
  unfold isS64 S64_MIN S64_MAX wrap64
  omega

theorem wrap64_eq_zero_iff (c i : Int) (hc : isS64 c) (hi : isS64 i) :
    wrap64 (c - i) = 0 ↔ c = i := by
  unfold isS64 S64_MIN S64_MAX at hc hi
  unfold wrap64
  omega

/-! ## Exchange primitives -/

/-- C1: for every cell value and all `val_old`, `val_new`, `arch_atomic64_cmpxchg` returns
the value the cell held; the cell afterwards holds `val_new` when it held `val_old` and is
unchanged otherwise.  Scenario: from 10, `cmpxchg(10, 20)` returns 10 and leaves 20, then
`cmpxchg(10, 99)` returns 20 and leaves 20. -/
theorem cmpxchg_contract (v : atomic64_t) (val_old val_new : Int) :
    (arch_atomic64_cmpxchg v val_old val_new).1 = v.counter ∧
    (arch_atomic64_cmpxchg v val_old val_new).2
      = (if v.counter = val_old then { counter := val_new } else v) ∧
    (arch_atomic64_cmpxchg (ATOMIC64_INIT 10) 10 20).1 = 10 ∧
    arch_atomic64_read (arch_atomic64_cmpxchg (ATOMIC64_INIT 10) 10 20).2 = 20 ∧
    (arch_atomic64_cmpxchg (arch_atomic64_cmpxchg (ATOMIC64_INIT 10) 10 20).2 10 99).1 = 20 ∧
    arch_atomic64_read
      (arch_atomic64_cmpxchg (arch_atomic64_cmpxchg (ATOMIC64_INIT 10) 10 20).2 10 99).2
      = 20 := by
  refine ⟨?_, ?_, by decide, by decide, by decide, by decide⟩
  · unfold arch_atomic64_cmpxchg arch_cmpxchg
    split <;> rfl
  · unfold arch_atomic64_cmpxchg arch_cmpxchg
    split <;> rfl

/-- C2: for every cell value, expected value `e` and new value `n`,
`arch_atomic64_try_cmpxchg` returns true, stores `n` and leaves the expected slot equal to
`e` when the cell holds `e`; otherwise it returns false, leaves the cell as it is and puts
the cell value into the expected slot. -/
theorem try_cmpxchg_contract (v : atomic64_t) (e n : Int) :
    arch_atomic64_try_cmpxchg v e n
      = (if v.counter = e then (true, e, { counter := n }) else (false, v.counter, v)) := by
  unfold arch_atomic64_try_cmpxchg try_cmpxchg
  rfl

/-! ## Retry loops without a concurrent writer -/

theorem try_cmpxchg_self (v : atomic64_t) (n : Int) :
    arch_atomic64_try_cmpxchg v v.counter n = (true, v.counter, { counter := n }) := by
  simp [arch_atomic64_try_cmpxchg, try_cmpxchg]

theorem add_unless_loop_fresh (fuel : Nat) (v : atomic64_t) (i u : Int) :
    add_unless_loop (fuel + 1) v v.counter i u
      = some (if v.counter = u then (false, v)
              else (true, { counter := wrap64 (v.counter + i) })) := by
  unfold add_unless_loop
  by_cases h : v.counter = u
  · simp [h]
  · simp [h, try_cmpxchg_self]

/-- C3: with no other writer, `arch_atomic64_add_unless(v, i, u)` returns (with any fuel of
at least one loop pass) false and leaves the cell alone when the cell holds `u`, and
otherwise returns true and leaves the cell equal to the wrapped sum of its value and `i`;
`arch_atomic64_inc_not_zero` returns false and leaves 0 on a zero cell and otherwise
returns true and leaves the wrapped successor. -/
theorem add_unless_contract (fuel : Nat) (v : atomic64_t) (i u : Int) :
    arch_atomic64_add_unless (fuel + 1) v i u
      = some (if v.counter = u then (false, v)
              else (true, { counter := wrap64 (v.counter + i) })) ∧
    arch_atomic64_inc_not_zero (fuel + 1) v
      = some (if v.counter = 0 then (false, { counter := 0 })
              else (true, { counter := wrap64 (v.counter + 1) })) := by
  constructor
  · exact add_unless_loop_fresh fuel v i u
  · unfold arch_atomic64_inc_not_zero arch_atomic64_add_unless arch_atomic64_read READ_ONCE
    rw [add_unless_loop_fresh]
    by_cases h : v.counter = 0
    · have hv : v = { counter := 0 } := by cases v; simp_all
      simp [h, hv]
    · simp [h]

/-! ## `arch_atomic64_add_unless` against a concurrent writer -/

theorem add_unless_env_loop_succ (i u : Int) (fuel : Nat) (env : List (Option Int))
    (m : logged_cell) (val_old : Int) (hm : m.cell.counter = val_old) :
    add_unless_env_loop (fuel + 1) env m val_old i u
      = if val_old = u then some (false, m)
        else
          match env with
          | some x :: ws =>
            if x = val_old then
              some (true, { cell := { counter := wrap64 (val_old + i) },
                            log := m.log ++ [cell_event.overwrite val_old x,
                              cell_event.cas_store val_old (wrap64 (val_old + i))] })
            else
              add_unless_env_loop fuel ws
                { cell := { counter := x },
                  log := m.log ++ [cell_event.overwrite val_old x, cell_event.cas_fail x] }
                x i u
          | _ =>
            some (true, { cell := { counter := wrap64 (val_old + i) },
                          log := m.log ++
                            [cell_event.cas_store val_old (wrap64 (val_old + i))] }) := by
  obtain ⟨c, l⟩ := m
  simp only at hm
  rw [add_unless_env_loop]
  by_cases hu : val_old = u
  · simp only [hu, if_true]
  · simp only [hu, if_false]
    cases env with
    | nil =>
      simp [interfere_logged, interfere, logged_try_cmpxchg, arch_atomic64_try_cmpxchg,
        try_cmpxchg, hm]
    | cons w ws =>
      cases w with
      | none =>
        simp [interfere_logged, interfere, logged_try_cmpxchg, arch_atomic64_try_cmpxchg,
          try_cmpxchg, hm]
      | some x =>
        by_cases hx : x = val_old
        · simp [interfere_logged, interfere, logged_try_cmpxchg, arch_atomic64_try_cmpxchg,
            try_cmpxchg, hm, hx]
        · simp [interfere_logged, interfere, logged_try_cmpxchg, arch_atomic64_try_cmpxchg,
            try_cmpxchg, hm, hx]

theorem add_unless_env_loop_ok (i u : Int) (fuel : Nat) :
    ∀ (env : List (Option Int)) (m : logged_cell) (val_old : Int),
      m.cell.counter = val_old → env.length + 1 ≤ fuel →
      ∃ (ret : Bool) (s : List cell_event) (c : atomic64_t),
        add_unless_env_loop fuel env m val_old i u
          = some (ret, { cell := c, log := m.log ++ s }) ∧
        replay m.cell s = some c ∧
        writer_values s = (env.take (attempts s)).reduceOption ∧
        ((ret = false ∧ last_seen_from (some val_old) s = some u ∧ caller_stores s = [] ∧
            c.counter = u) ∨
         (ret = true ∧ ∃ (pre : List cell_event) (w : Int), w ≠ u ∧
            s = pre ++ [cell_event.cas_store w (wrap64 (w + i))] ∧ caller_stores pre = [] ∧
            c = { counter := wrap64 (w + i) })) := by
  induction fuel with
  | zero =>
    intro env m val_old _ h
    omega
  | succ fuel ih =>
    intro env m val_old hm hf
    rw [add_unless_env_loop_succ i u fuel env m val_old hm]
    by_cases hu : val_old = u
    · rw [if_pos hu]
      refine ⟨false, [], m.cell, ?_, rfl, ?_, Or.inl ⟨rfl, ?_, rfl, ?_⟩⟩
      · simp
      · simp [writer_values, attempts]
      · simp [last_seen_from, hu]
      · rw [hm, hu]
    · rw [if_neg hu]
      have hsucc : ∀ ws : List (Option Int), (∀ x : Int, ws.head? ≠ some (some x)) →
          ∃ (ret : Bool) (s : List cell_event) (c : atomic64_t),
            some (true, logged_cell.mk (atomic64_t.mk (wrap64 (val_old + i)))
                (m.log ++ [cell_event.cas_store val_old (wrap64 (val_old + i))]))
              = some (ret, logged_cell.mk c (m.log ++ s)) ∧
            replay m.cell s = some c ∧
            writer_values s = (ws.take (attempts s)).reduceOption ∧
            ((ret = false ∧ last_seen_from (some val_old) s = some u ∧ caller_stores s = [] ∧
                c.counter = u) ∨
             (ret = true ∧ ∃ (pre : List cell_event) (w : Int), w ≠ u ∧
                s = pre ++ [cell_event.cas_store w (wrap64 (w + i))] ∧
                caller_stores pre = [] ∧ c = { counter := wrap64 (w + i) })) := by
        intro ws hws
        refine ⟨true, [cell_event.cas_store val_old (wrap64 (val_old + i))], _, rfl, ?_, ?_,
          Or.inr ⟨rfl, [], val_old, hu, rfl, rfl, rfl⟩⟩
        · simp [replay, hm]
        · cases ws with
          | nil => simp [writer_values, attempts]
          | cons a as =>
            cases a with
            | none => simp [writer_values, attempts, List.reduceOption]
            | some x => exact absurd rfl (hws x)
      cases env with
      | nil => exact hsucc [] (by simp)
      | cons a ws =>
        cases a with
        | none => exact hsucc (none :: ws) (by simp)
        | some x =>
          simp only
          by_cases hx : x = val_old
          · rw [if_pos hx]
            refine ⟨true, [cell_event.overwrite val_old x,
              cell_event.cas_store val_old (wrap64 (val_old + i))], _, rfl, ?_, ?_,
              Or.inr ⟨rfl, [cell_event.overwrite val_old x], val_old, hu, rfl, rfl, rfl⟩⟩
            · simp [replay, hm, hx]
            · simp [writer_values, attempts, List.reduceOption]
          · rw [if_neg hx]
            obtain ⟨ret, s, c, h1, h2, h3, h4⟩ := ih ws
              { cell := { counter := x },
                log := m.log ++ [cell_event.overwrite val_old x, cell_event.cas_fail x] }
              x rfl (by simp at hf; omega)
            refine ⟨ret, cell_event.overwrite val_old x :: cell_event.cas_fail x :: s, c,
              ?_, ?_, ?_, ?_⟩
            · rw [h1]
              simp
            · simp [replay, hm]
              exact h2
            · simp [writer_values, attempts, h3, List.reduceOption]
            · rcases h4 with ⟨r1, r2, r3, r4⟩ | ⟨r1, pre, w, r2, r3, r4, r5⟩
              · exact Or.inl ⟨r1, by simpa [last_seen_from] using r2,
                  by simpa [caller_stores] using r3, r4⟩
              · refine Or.inr ⟨r1, cell_event.overwrite val_old x :: cell_event.cas_fail x :: pre,
                  w, r2, ?_, ?_, r5⟩
                · rw [r3]; rfl
                · simpa [caller_stores] using r4

theorem add_unless_env_loop_silent (i u : Int) (fuel : Nat) :
    ∀ (n : Nat) (m : logged_cell) (val_old : Int),
      (add_unless_env_loop fuel (List.replicate n none) m val_old i u).map
          (fun r => (r.1, r.2.cell))
        = add_unless_loop fuel m.cell val_old i u := by
  induction fuel with
  | zero => intro n m val_old; rfl
  | succ fuel ih =>
    intro n m val_old
    rw [add_unless_env_loop, add_unless_loop]
    by_cases hu : val_old = u
    · rw [if_pos hu, if_pos hu]
      rfl
    · rw [if_neg hu, if_neg hu]
      have hh : (List.replicate n (none : Option Int)).head?.join = none := by
        cases n <;> rfl
      have ht : (List.replicate n (none : Option Int)).tail = List.replicate (n - 1) none := by
        cases n <;> rfl
      have hi : interfere_logged none m = m := by
        cases m
        rfl
      rw [hh, ht, hi, logged_try_cmpxchg]
      generalize arch_atomic64_try_cmpxchg m.cell val_old (wrap64 (val_old + i)) = r
      obtain ⟨b, v1, c1⟩ := r
      cases b
      · exact ih (n - 1) _ v1
      · rfl

/-- C4: run `arch_atomic64_add_unless(v, i, u)` on a cell that records every access to it,
while a concurrent writer may overwrite the cell before each compare-exchange attempt (any
finite schedule `env`).  With fuel for one pass more than the schedule is long the call
returns.  The record then replays from the initial cell to the final cell, so the cell
changed only through the recorded stores and every recorded observation is the value the
cell held at that moment, and the writer's stores in it are those of the slots of `env`
that came before the call's attempts.  If the call returned false, the last value it
observed is `u`, the record has no store by the call, and the cell holds `u`.  If it
returned true, the record ends with the call's only store, which replaced a value `w`
different from `u` by the wrapped `w + i`, and the cell holds that sum.  If the writer's
first slot sets the cell to `u`, the call returns false without a store.  With a silent
writer the call is `arch_atomic64_add_unless` itself. -/
theorem add_unless_under_interference (k : Nat) (env : List (Option Int)) (v : atomic64_t)
    (i u : Int) :
    (∃ (ret : Bool) (m : logged_cell),
      add_unless_env (env.length + 1 + k) env v i u = some (ret, m) ∧
      replay v m.log = some m.cell ∧
      writer_values m.log = (env.take (attempts m.log)).reduceOption ∧
      ((ret = false ∧ last_seen m.log = some u ∧ caller_stores m.log = [] ∧
          m.cell.counter = u) ∨
       (ret = true ∧ ∃ (pre : List cell_event) (w : Int), w ≠ u ∧
          m.log = pre ++ [cell_event.cas_store w (wrap64 (w + i))] ∧
          caller_stores pre = [] ∧ m.cell = { counter := wrap64 (w + i) }))) ∧
    add_unless_env (k + 2) (some u :: env) v i u
      = some (false,
          if v.counter = u then { cell := v, log := [cell_event.load u] }
          else { cell := { counter := u },
                 log := [cell_event.load v.counter, cell_event.overwrite v.counter u,
                         cell_event.cas_fail u] }) ∧
    (∀ fuel n : Nat,
      (add_unless_env fuel (List.replicate n none) v i u).map (fun r => (r.1, r.2.cell))
        = arch_atomic64_add_unless fuel v i u) ∧
    add_unless_env 2 [some 7] { counter := 5 } 1 8
      = some (true, { cell := { counter := 8 },
                      log := [cell_event.load 5, cell_event.overwrite 5 7,
                              cell_event.cas_fail 7, cell_event.cas_store 7 8] }) ∧
    add_unless_env 2 [some 0] { counter := 5 } 1 0
      = some (false, { cell := { counter := 0 },
                       log := [cell_event.load 5, cell_event.overwrite 5 0,
                               cell_event.cas_fail 0] }) := by
  refine ⟨?_, ?_, ?_, by decide, by decide⟩
  · obtain ⟨ret, s, c, h1, h2, h3, h4⟩ := add_unless_env_loop_ok i u (env.length + 1 + k) env
      { cell := v, log := [cell_event.load v.counter] } v.counter rfl (by omega)
    refine ⟨ret, { cell := c, log := cell_event.load v.counter :: s }, h1, ?_, ?_, ?_⟩
    · simp only [replay, if_true]
      exact h2
    · simp only [writer_values, attempts]
      exact h3
    · rcases h4 with ⟨r1, r2, r3, r4⟩ | ⟨r1, pre, w, r2, r3, r4, r5⟩
      · exact Or.inl ⟨r1, r2, r3, r4⟩
      · refine Or.inr ⟨r1, cell_event.load v.counter :: pre, w, r2, ?_, r4, r5⟩
        simp only [r3, List.cons_append]
  · show add_unless_env_loop (k + 1 + 1) (some u :: env)
      { cell := v, log := [cell_event.load v.counter] } v.counter i u = _
    rw [add_unless_env_loop_succ i u (k + 1) _ _ _ rfl]
    by_cases hu : v.counter = u
    · rw [if_pos hu, if_pos hu, hu]
    · have hne : ¬ u = v.counter := fun h => hu h.symm
      rw [if_neg hu, if_neg hu]
      simp only [if_neg hne]
      rw [add_unless_env_loop_succ i u k _ _ _ rfl, if_pos rfl]
      rfl
  · intro fuel n
    exact add_unless_env_loop_silent i u fuel n _ _

/-! ## `arch_atomic64_dec_if_positive` -/

theorem dec_if_positive_loop_fresh (fuel : Nat) (v : atomic64_t) :
    dec_if_positive_loop (fuel + 1) v v.counter
      = some (wrap64 (v.counter - 1),
              if wrap64 (v.counter - 1) < 0 then v
              else { counter := wrap64 (v.counter - 1) }) := by
  rw [dec_if_positive_loop]
  by_cases h : wrap64 (v.counter - 1) < 0
  · simp only [h, if_true]
  · simp only [h, if_false, try_cmpxchg_self]

theorem dec_if_positive_nonneg (fuel : Nat) (n : Int) (h0 : 0 ≤ n) (h1 : n ≤ S64_MAX) :
    arch_atomic64_dec_if_positive (fuel + 1) { counter := n }
      = some (n - 1, { counter := max (n - 1) 0 }) := by
  unfold arch_atomic64_dec_if_positive arch_atomic64_read READ_ONCE
  rw [dec_if_positive_loop_fresh]
  have hw : wrap64 (n - 1) = n - 1 := by
    apply wrap64_of_isS64
    unfold isS64 S64_MIN S64_MAX
    unfold S64_MAX at h1
    omega
  simp only [hw]
  by_cases h : n - 1 < 0
  · have hm : max (n - 1) 0 = n := by omega
    simp only [h, if_true, hm]
  · have hm : max (n - 1) 0 = n - 1 := by omega
    simp only [h, if_false, hm]

theorem dec_if_positive_calls_nonneg (fuel : Nat) (j : Nat) :
    ∀ n : Int, 0 ≤ n → n ≤ S64_MAX →
      dec_if_positive_calls (fuel + 1) j { counter := n }
        = some { counter := max (n - j) 0 } := by
  induction j with
  | zero =>
    intro n h0 _
    have hm : max (n - ((0 : Nat) : Int)) 0 = n := by omega
    rw [dec_if_positive_calls, hm]
  | succ j ih =>
    intro n h0 h1
    have hmax : S64_MAX = 9223372036854775807 := rfl
    rw [dec_if_positive_calls, dec_if_positive_nonneg fuel n h0 h1]
    simp only
    rw [ih (max (n - 1) 0) (by omega) (by omega)]
    have hm : max (max (n - 1) 0 - (j : Int)) 0 = max (n - ((j + 1 : Nat) : Int)) 0 := by
      push_cast
      omega
    rw [hm]

/-- C5: with no other writer, starting from a cell value `n` with `0 ≤ n`, the `k`-th
consecutive call (`k ≥ 1`) of `arch_atomic64_dec_if_positive` returns `max (n - k) (-1)`
and leaves the cell equal to `max (n - k) 0`; after any number of calls the cell is
not below 0. -/
theorem dec_if_positive_repeated (fuel : Nat) (n : Int) (k : Nat)
    (h0 : 0 ≤ n) (h1 : n ≤ S64_MAX) (hk : 1 ≤ k) :
    dec_if_positive_kth (fuel + 1) k { counter := n }
      = some (max (n - k) (-1), { counter := max (n - k) 0 }) ∧
    ∃ w, dec_if_positive_calls (fuel + 1) k { counter := n } = some w ∧ 0 ≤ w.counter := by
  have hmax : S64_MAX = 9223372036854775807 := rfl
  constructor
  · unfold dec_if_positive_kth
    rw [dec_if_positive_calls_nonneg fuel (k - 1) n h0 h1]
    simp only
    rw [dec_if_positive_nonneg fuel _ (by omega) (by omega)]
    have e1 : max (n - ((k - 1 : Nat) : Int)) 0 - 1 = max (n - (k : Int)) (-1) := by omega
    have e2 : max (max (n - ((k - 1 : Nat) : Int)) 0 - 1) 0 = max (n - (k : Int)) 0 := by
      omega
    rw [e2, e1]
  · exact ⟨_, dec_if_positive_calls_nonneg fuel k n h0 h1, le_max_right _ _⟩

/-- Witness of C5: from 3, the first six calls return 2, 1, 0, -1, -1, -1 and leave
2, 1, 0, 0, 0, 0. -/
theorem dec_if_positive_repeated_witness :
    ((0 : Int) ≤ 3 ∧ (3 : Int) ≤ S64_MAX ∧ 1 ≤ 4) ∧
    (dec_if_positive_kth 1 4 { counter := 3 }
        = some (max ((3 : Int) - (4 : Nat)) (-1), { counter := max ((3 : Int) - (4 : Nat)) 0 }) ∧
      ∃ w, dec_if_positive_calls 1 4 { counter := 3 } = some w ∧ 0 ≤ w.counter) ∧
    [1, 2, 3, 4, 5, 6].map (fun k => dec_if_positive_kth 1 k { counter := 3 })
      = [some (2, { counter := 2 }), some (1, { counter := 1 }), some (0, { counter := 0 }),
         some (-1, { counter := 0 }), some (-1, { counter := 0 }),
         some (-1, { counter := 0 })] :=
  ⟨by decide, dec_if_positive_repeated 0 3 4 (by decide) (by decide) (by decide), by decide⟩

/-- C6, at the input where it fails: on a cell holding `S64_MIN`, which is not positive,
`arch_atomic64_dec_if_positive` computes the wrapped `val_new = S64_MAX`, finds it
non-negative and stores it, so the cell is changed. -/
theorem dec_if_positive_at_min (fuel : Nat) :
    arch_atomic64_dec_if_positive (fuel + 1) { counter := S64_MIN }
      = some (S64_MAX, { counter := S64_MAX }) ∧
    ¬ (0 < S64_MIN) ∧ isS64 S64_MIN := by
  refine ⟨?_, by decide, by decide⟩
  unfold arch_atomic64_dec_if_positive arch_atomic64_read READ_ONCE
  rw [dec_if_positive_loop_fresh]
  rfl

theorem dec_if_positive_off_min (fuel : Nat) (v : atomic64_t) (h : isS64 v.counter)
    (hmin : v.counter ≠ S64_MIN) :
    ∃ r, arch_atomic64_dec_if_positive (fuel + 1) v
      = some (r, if 0 < v.counter then { counter := v.counter - 1 } else v) := by
  unfold arch_atomic64_dec_if_positive arch_atomic64_read READ_ONCE
  rw [dec_if_positive_loop_fresh]
  have hw : wrap64 (v.counter - 1) = v.counter - 1 := by
    apply wrap64_of_isS64
    unfold isS64 S64_MIN S64_MAX at *
    omega
  rw [hw]
  refine ⟨v.counter - 1, ?_⟩
  by_cases hp : 0 < v.counter
  · have : ¬ v.counter - 1 < 0 := by omega
    simp only [this, hp, if_true, if_false]
  · have : v.counter - 1 < 0 := by omega
    simp only [this, hp, if_true, if_false]

/-- C7: with no other writer, `arch_atomic64_dec_if_positive` returns the wrapped
`c - 1` for every cell value `c`, and the sign of that result tells the outcome: it is
non-negative exactly when the cell was changed and now holds the result, and negative
exactly when the cell is as before. -/
theorem dec_if_positive_result (fuel : Nat) (v : atomic64_t) :
    ∃ v1, arch_atomic64_dec_if_positive (fuel + 1) v = some (wrap64 (v.counter - 1), v1) ∧
      (0 ≤ wrap64 (v.counter - 1) ↔ (v1 ≠ v ∧ v1 = { counter := wrap64 (v.counter - 1) })) ∧
      (wrap64 (v.counter - 1) < 0 ↔ v1 = v) := by
  unfold arch_atomic64_dec_if_positive arch_atomic64_read READ_ONCE
  rw [dec_if_positive_loop_fresh]
  refine ⟨_, rfl, ?_, ?_⟩
  · have hne : ({ counter := wrap64 (v.counter - 1) } : atomic64_t) ≠ v := by
      intro h
      have h2 : wrap64 (v.counter - 1) = v.counter := congrArg atomic64_t.counter h
      unfold wrap64 at h2
      omega
    by_cases hneg : wrap64 (v.counter - 1) < 0
    · rw [if_pos hneg]
      constructor
      · intro h; omega
      · intro h; exact absurd rfl h.1
    · rw [if_neg hneg]
      constructor
      · intro _; exact ⟨hne, rfl⟩
      · intro _; omega
  · by_cases hneg : wrap64 (v.counter - 1) < 0
    · rw [if_pos hneg]
      exact ⟨fun _ => rfl, fun _ => hneg⟩
    · rw [if_neg hneg]
      refine ⟨fun h => absurd h hneg, fun h => ?_⟩
      have h2 : wrap64 (v.counter - 1) = v.counter := congrArg atomic64_t.counter h
      unfold wrap64 at h2
      omega

/-! ## Direct arithmetic with a returned value or a fused test -/

/-- C8: from the same cell value `c`, `arch_atomic64_add_return(i, v)` and
`arch_atomic64_fetch_add(i, v)` both leave the cell equal to the wrapped `c + i`;
`fetch_add` returns `c`, and the result of `add_return` is the wrapped sum of the result
of `fetch_add` and `i`, which is the new value of the cell. -/
theorem add_return_fetch_add (i : Int) (v : atomic64_t) :
    (arch_atomic64_add_return i v).2 = { counter := wrap64 (v.counter + i) } ∧
    (arch_atomic64_fetch_add i v).2 = { counter := wrap64 (v.counter + i) } ∧
    (arch_atomic64_fetch_add i v).1 = v.counter ∧
    (arch_atomic64_add_return i v).1 = wrap64 ((arch_atomic64_fetch_add i v).1 + i) ∧
    (arch_atomic64_add_return i v).1
      = arch_atomic64_read (arch_atomic64_add_return i v).2 :=
  ⟨rfl, rfl, rfl, rfl, rfl⟩

theorem cc_e_holds_flags_of (r : Int) : (cc.e.holds (flags_of r) = true ↔ r = 0) := by
  simp [cc.holds, flags_of]

theorem cc_s_holds_flags_of (r : Int) : (cc.s.holds (flags_of r) = true ↔ r < 0) := by
  simp [cc.holds, flags_of]

/-- C9: for signed 64-bit `c` and `i`, `arch_atomic64_sub_and_test(i, v)` leaves the cell
equal to the wrapped `c - i` whatever it returns, and returns true exactly when that
wrapped difference is zero, which is exactly when `c = i`. -/
theorem sub_and_test_contract (i : Int) (v : atomic64_t)
    (hc : isS64 v.counter) (hi : isS64 i) :
    (arch_atomic64_sub_and_test i v).2 = { counter := wrap64 (v.counter - i) } ∧
    ((arch_atomic64_sub_and_test i v).1 = true ↔ wrap64 (v.counter - i) = 0) ∧
    ((arch_atomic64_sub_and_test i v).1 = true ↔ v.counter = i) := by
  have h : (arch_atomic64_sub_and_test i v).1 = true ↔ wrap64 (v.counter - i) = 0 :=
    cc_e_holds_flags_of (wrap64 (v.counter - i))
  exact ⟨rfl, h, h.trans (wrap64_eq_zero_iff v.counter i hc hi)⟩

/-- Witness of C9: on a cell holding 5, subtracting 5 returns true and leaves 0. -/
theorem sub_and_test_contract_witness :
    (isS64 (5 : Int) ∧ isS64 (5 : Int)) ∧
    ((arch_atomic64_sub_and_test 5 { counter := 5 }).2
        = { counter := wrap64 ((5 : Int) - 5) } ∧
      ((arch_atomic64_sub_and_test 5 { counter := 5 }).1 = true ↔ wrap64 ((5 : Int) - 5) = 0) ∧
      ((arch_atomic64_sub_and_test 5 { counter := 5 }).1 = true ↔ (5 : Int) = 5)) ∧
    arch_atomic64_sub_and_test 5 { counter := 5 } = (true, { counter := 0 }) ∧
    arch_atomic64_sub_and_test 5 { counter := 7 } = (false, { counter := 2 }) :=
  ⟨by decide, sub_and_test_contract 5 { counter := 5 } (by decide) (by decide),
    by decide, by decide⟩

/-- C10: `arch_atomic64_add_negative(i, v)` leaves the cell equal to the wrapped `c + i`, a
signed 64-bit value, and returns true exactly when that stored value is negative; the
sign is that of the wrapped result: on `S64_MAX` with `i = 1` the mathematical sum is
positive, the stored value is `S64_MIN` and the call returns true. -/
theorem add_negative_contract (i : Int) (v : atomic64_t) :
    (arch_atomic64_add_negative i v).2 = { counter := wrap64 (v.counter + i) } ∧
    isS64 (arch_atomic64_add_negative i v).2.counter ∧
    ((arch_atomic64_add_negative i v).1 = true
      ↔ arch_atomic64_read (arch_atomic64_add_negative i v).2 < 0) ∧
    arch_atomic64_add_negative 1 { counter := S64_MAX } = (true, { counter := S64_MIN }) ∧
    0 < S64_MAX + 1 :=
  ⟨rfl, wrap64_isS64 _, cc_s_holds_flags_of (wrap64 (v.counter + i)), by decide, by decide⟩

/-! ## Bitwise operations -/

theorem fetch_op_loop_fresh (f : Int → Int) (fuel : Nat) (v : atomic64_t) :
    fetch_op_loop f (fuel + 1) v v.counter
      = some (v.counter, { counter := f v.counter }) := by
  rw [fetch_op_loop]
  simp only [try_cmpxchg_self]

/-- C11: with no other writer, `arch_atomic64_fetch_and`, `arch_atomic64_fetch_or` and
`arch_atomic64_fetch_xor` (with any fuel of at least one loop pass) each return the value
`c` the cell held and leave the cell equal to `c & i`, `c | i` and `c ^ i`; for instance on
a cell holding -6 with operand 3 they return -6 and leave 2, -5 and -7. -/
theorem fetch_bitwise_contract (fuel : Nat) (i : Int) (v : atomic64_t) :
    arch_atomic64_fetch_and (fuel + 1) i v
      = some (v.counter, { counter := and64 v.counter i }) ∧
    arch_atomic64_fetch_or (fuel + 1) i v
      = some (v.counter, { counter := or64 v.counter i }) ∧
    arch_atomic64_fetch_xor (fuel + 1) i v
      = some (v.counter, { counter := xor64 v.counter i }) ∧
    arch_atomic64_fetch_and 1 3 { counter := -6 } = some (-6, { counter := 2 }) ∧
    arch_atomic64_fetch_or 1 3 { counter := -6 } = some (-6, { counter := -5 }) ∧
    arch_atomic64_fetch_xor 1 3 { counter := -6 } = some (-6, { counter := -7 }) :=
  ⟨fetch_op_loop_fresh _ fuel v, fetch_op_loop_fresh _ fuel v, fetch_op_loop_fresh _ fuel v,
    by decide, by decide, by decide⟩

theorem read_counter (v : atomic64_t) : arch_atomic64_read v = v.counter := rfl

theorem or_counter (i : Int) (v : atomic64_t) :
    (arch_atomic64_or i v).counter = or64 v.counter i := by
  unfold arch_atomic64_or orq
  exact Eq.refl _

theorem xor_counter (i : Int) (v : atomic64_t) :
    (arch_atomic64_xor i v).counter = xor64 v.counter i := by
  unfold arch_atomic64_xor xorq
  exact Eq.refl _

theorem and_counter (i : Int) (v : atomic64_t) :
    (arch_atomic64_and i v).counter = and64 v.counter i := by
  unfold arch_atomic64_and andq
  exact Eq.refl _

/-- C12: after `arch_atomic64_or(i, v)`, `arch_atomic64_xor(i, v)` or
`arch_atomic64_and(i, v)` on a cell holding `c`, `arch_atomic64_read` returns `c | i`,
`c ^ i` or `c & i`; for instance from -6 with operand 3 it returns -5, -7 and 2. -/
theorem bitwise_then_read (i : Int) (v : atomic64_t) :
    arch_atomic64_read (arch_atomic64_or i v) = or64 v.counter i ∧
    arch_atomic64_read (arch_atomic64_xor i v) = xor64 v.counter i ∧
    arch_atomic64_read (arch_atomic64_and i v) = and64 v.counter i ∧
    arch_atomic64_read (arch_atomic64_or 3 { counter := -6 }) = -5 ∧
    arch_atomic64_read (arch_atomic64_xor 3 { counter := -6 }) = -7 ∧
    arch_atomic64_read (arch_atomic64_and 3 { counter := -6 }) = 2 :=
  ⟨(read_counter _).trans (or_counter i v), (read_counter _).trans (xor_counter i v),
    (read_counter _).trans (and_counter i v), by decide, by decide, by decide⟩

/-! ## Plain arithmetic -/

theorem wrap64_congr (x : Int) : (wrap64 x - x) % 18446744073709551616 = 0 := by
  unfold wrap64
  omega

/-- C13: `arch_atomic64_add(i, v)` leaves the cell equal to the signed 64-bit value
congruent to `c + i` modulo 2^64, and `arch_atomic64_sub(i, v)` to the one congruent to
`c - i`; both are defined for all operands, and adding 1 to `S64_MAX` leaves `S64_MIN`. -/
theorem add_sub_wrap (i : Int) (v : atomic64_t) :
    (arch_atomic64_add i v).counter = wrap64 (v.counter + i) ∧
    isS64 (arch_atomic64_add i v).counter ∧
    ((arch_atomic64_add i v).counter - (v.counter + i)) % 18446744073709551616 = 0 ∧
    (arch_atomic64_sub i v).counter = wrap64 (v.counter - i) ∧
    isS64 (arch_atomic64_sub i v).counter ∧
    ((arch_atomic64_sub i v).counter - (v.counter - i)) % 18446744073709551616 = 0 ∧
    arch_atomic64_add 1 { counter := S64_MAX } = { counter := S64_MIN } :=
  ⟨rfl, wrap64_isS64 _, wrap64_congr _, rfl, wrap64_isS64 _, wrap64_congr _, by decide⟩

/-! ## Concurrent increments lose no update -/

theorem done_count_le (l : List inc_pc) : done_count l ≤ l.length := by
  induction l with
  | nil => simp [done_count]
  | cons p l ih => cases p <;> simp [done_count] <;> omega

theorem done_count_set_other (l : List inc_pc) :
    ∀ (t : Nat) (p q : inc_pc), l[t]? = some p → p ≠ inc_pc.done → q ≠ inc_pc.done →
      done_count (l.set t q) = done_count l := by
  induction l with
  | nil => intro t p q h; simp at h
  | cons a l ih =>
    intro t p q h hp hq
    cases t with
    | zero =>
      simp at h
      subst h
      cases a <;> cases q <;> simp_all [done_count]
    | succ t =>
      simp at h
      have := ih t p q h hp hq
      cases a <;> simp [done_count, this]

theorem done_count_set_done (l : List inc_pc) :
    ∀ (t : Nat) (p : inc_pc), l[t]? = some p → p ≠ inc_pc.done →
      done_count (l.set t inc_pc.done) = done_count l + 1 := by
  induction l with
  | nil => intro t p h; simp at h
  | cons a l ih =>
    intro t p h hp
    cases t with
    | zero =>
      simp at h
      subst h
      cases a <;> simp_all [done_count]
    | succ t =>
      simp at h
      have := ih t p h hp
      cases a <;> simp [done_count, this]

theorem done_count_lt (l : List inc_pc) :
    ∀ (t : Nat) (p : inc_pc), l[t]? = some p → p ≠ inc_pc.done →
      done_count l < l.length := by
  induction l with
  | nil => intro t p h; simp at h
  | cons a l ih =>
    intro t p h hp
    cases t with
    | zero =>
      simp at h
      subst h
      have := done_count_le l
      cases a <;> simp_all [done_count] <;> omega
    | succ t =>
      simp at h
      have := ih t p h hp
      cases a <;> simp [done_count] <;> omega

theorem done_count_all (l : List inc_pc) :
    l.all (fun p => decide (p = inc_pc.done)) = true → done_count l = l.length := by
  induction l with
  | nil => intro _; rfl
  | cons a l ih =>
    intro h
    simp only [List.all_cons, Bool.and_eq_true, decide_eq_true_eq] at h
    obtain ⟨ha, hl⟩ := h
    subst ha
    simp [done_count, ih hl]

theorem inc_step_length (lock : Bool) (t : Nat) (m : inc_machine) :
    (inc_step lock t m).pcs.length = m.pcs.length := by
  unfold inc_step
  split
  · rfl
  · split <;> simp

theorem inc_step_inv (t : Nat) (m : inc_machine)
    (hlen : (m.pcs.length : Int) < 9223372036854775808) (h : inc_inv m) :
    inc_inv (inc_step true t m) := by
  obtain ⟨c, o, l⟩ := m
  obtain ⟨hc, ho⟩ := h
  simp only at hc ho hlen
  unfold inc_step inc_waits
  cases o with
  | none =>
    simp only [Bool.false_eq_true, if_false]
    cases hp : l[t]? with
    | none => exact ⟨hc, ho⟩
    | some p =>
      cases p with
      | start =>
        refine ⟨?_, ?_, ?_⟩
        · simp only [if_true]
          rw [done_count_set_other l t _ _ hp (by simp) (by simp)]
          exact hc
        · have ht : t < l.length := by
            rcases List.getElem?_eq_some_iff.mp hp with ⟨h1, _⟩
            exact h1
          simp [List.getElem?_set_self ht]
        · intro s x hs
          simp only
          rw [List.getElem?_set_ne (Ne.symm hs)]
          exact ho s x
      | loaded x => exact absurd hp (ho t x)
      | done => exact ⟨hc, ho⟩
  | some s =>
    by_cases hs : s = t
    · subst hs
      obtain ⟨ho1, ho2⟩ := ho
      simp only [ne_eq, not_true_eq_false, decide_False, Bool.false_eq_true, if_false, ho1]
      have hlt := done_count_lt l s _ ho1 (by simp)
      refine ⟨?_, ?_⟩
      · simp only
        rw [done_count_set_done l s _ ho1 (by simp)]
        show wrap64 (c.counter + 1) = _
        rw [wrap64_of_isS64]
        · rw [hc]; push_cast; rfl
        · unfold isS64 S64_MIN S64_MAX
          rw [hc]
          omega
      · intro s1 x
        simp only
        by_cases h1 : s1 = s
        · subst h1
          have ht : s1 < l.length := by
            rcases List.getElem?_eq_some_iff.mp ho1 with ⟨h2, _⟩
            exact h2
          simp [List.getElem?_set_self ht]
        · rw [List.getElem?_set_ne (Ne.symm h1)]
          exact ho2 s1 x h1
    · simp only [ne_eq, hs, not_false_eq_true, decide_True, if_true]
      exact ⟨hc, ho⟩

theorem run_inc_machine_append (lock : Bool) (a b : List Nat) :
    ∀ m : inc_machine,
      run_inc_machine lock (a ++ b) m = run_inc_machine lock b (run_inc_machine lock a m) := by
  induction a with
  | nil => intro m; rfl
  | cons t a ih => intro m; exact ih (inc_step lock t m)

theorem run_inc_machine_inv (sched : List Nat) :
    ∀ m : inc_machine, (m.pcs.length : Int) < 9223372036854775808 → inc_inv m →
      inc_inv (run_inc_machine true sched m) ∧
      (run_inc_machine true sched m).pcs.length = m.pcs.length := by
  induction sched with
  | nil => intro m _ h; exact ⟨h, rfl⟩
  | cons t rest ih =>
    intro m hlen h
    have hl := inc_step_length true t m
    have h1 := ih (inc_step true t m) (by rw [hl]; exact hlen) (inc_step_inv t m hlen h)
    exact ⟨h1.1, h1.2.trans hl⟩

theorem inc_machine_init_inv (N : Nat) : inc_inv (inc_machine_init (ATOMIC64_INIT 0) N) := by
  refine ⟨?_, ?_⟩
  · show (0 : Int) = (done_count (List.replicate N inc_pc.start) : Int)
    have : done_count (List.replicate N inc_pc.start) = 0 := by
      induction N with
      | zero => rfl
      | succ n ih => simp [List.replicate_succ, done_count, ih]
    rw [this]
    rfl
  · intro s x
    show (List.replicate N inc_pc.start)[s]? ≠ some (inc_pc.loaded x)
    rw [List.getElem?_replicate]
    split <;> simp

theorem inc_all_done_of_getElem (l : List inc_pc)
    (h : ∀ s : Nat, s < l.length → l[s]? = some inc_pc.done) :
    l.all (fun p => decide (p = inc_pc.done)) = true := by
  rw [List.all_eq_true]
  intro x hx
  obtain ⟨n, hn⟩ := List.getElem?_of_mem hx
  have hlt : n < l.length := by
    rcases List.getElem?_eq_some_iff.mp hn with ⟨h1, _⟩
    exact h1
  have := h n hlt
  rw [hn] at this
  simp only [Option.some.injEq] at this
  simp [this]

theorem inc_step_twice_quiet (t : Nat) (m : inc_machine) (ho : m.owner = none)
    (hq : ∀ (s : Nat) (x : Int), m.pcs[s]? ≠ some (inc_pc.loaded x)) :
    (inc_step true t (inc_step true t m)).owner = none ∧
    (∀ (s : Nat) (x : Int),
      (inc_step true t (inc_step true t m)).pcs[s]? ≠ some (inc_pc.loaded x)) ∧
    (∀ s : Nat, m.pcs[s]? = some inc_pc.done →
      (inc_step true t (inc_step true t m)).pcs[s]? = some inc_pc.done) ∧
    (t < m.pcs.length →
      (inc_step true t (inc_step true t m)).pcs[t]? = some inc_pc.done) := by
  obtain ⟨c, o, l⟩ := m
  simp only at ho hq
  subst ho
  cases hp : l[t]? with
  | none =>
    have e : inc_step true t { cell := c, owner := none, pcs := l }
        = { cell := c, owner := none, pcs := l } := by
      simp [inc_step, inc_waits, hp]
    rw [e, e]
    refine ⟨rfl, hq, fun s h => h, ?_⟩
    intro ht
    have := List.getElem?_eq_none_iff.mp hp
    simp only at ht
    omega
  | some p =>
    have ht : t < l.length := by
      rcases List.getElem?_eq_some_iff.mp hp with ⟨h1, _⟩
      exact h1
    cases p with
    | start =>
      have e1 : inc_step true t { cell := c, owner := none, pcs := l }
          = { cell := c, owner := some t, pcs := l.set t (inc_pc.loaded c.counter) } := by
        simp [inc_step, inc_waits, hp]
      have e2 : inc_step true t
            { cell := c, owner := some t, pcs := l.set t (inc_pc.loaded c.counter) }
          = { cell := arch_atomic64_inc { counter := c.counter }, owner := none,
              pcs := l.set t inc_pc.done } := by
        simp [inc_step, inc_waits, List.getElem?_set_self ht, List.set_set]
      rw [e1, e2]
      refine ⟨rfl, ?_, ?_, ?_⟩
      · intro s x
        simp only
        by_cases hs : s = t
        · subst hs; simp [List.getElem?_set_self ht]
        · rw [List.getElem?_set_ne (Ne.symm hs)]; exact hq s x
      · intro s h
        simp only at h ⊢
        by_cases hs : s = t
        · subst hs; simp [List.getElem?_set_self ht]
        · rw [List.getElem?_set_ne (Ne.symm hs)]; exact h
      · intro _
        simp [List.getElem?_set_self ht]
    | loaded x => exact absurd hp (hq t x)
    | done =>
      have e : inc_step true t { cell := c, owner := none, pcs := l }
          = { cell := c, owner := none, pcs := l } := by
        simp [inc_step, inc_waits, hp]
      rw [e, e]
      exact ⟨rfl, hq, fun s h => h, fun _ => hp⟩

theorem inc_round_done (n : Nat) :
    ∀ m : inc_machine, m.owner = none →
      (∀ (s : Nat) (x : Int), m.pcs[s]? ≠ some (inc_pc.loaded x)) → n ≤ m.pcs.length →
      (run_inc_machine true (inc_round n) m).owner = none ∧
      (∀ (s : Nat) (x : Int),
        (run_inc_machine true (inc_round n) m).pcs[s]? ≠ some (inc_pc.loaded x)) ∧
      (run_inc_machine true (inc_round n) m).pcs.length = m.pcs.length ∧
      (∀ s : Nat, s < n →
        (run_inc_machine true (inc_round n) m).pcs[s]? = some inc_pc.done) := by
  induction n with
  | zero =>
    intro m ho hq _
    exact ⟨ho, hq, rfl, fun s hs => absurd hs (Nat.not_lt_zero s)⟩
  | succ n ih =>
    intro m ho hq hn
    obtain ⟨h1, h2, h3, h4⟩ := ih m ho hq (by omega)
    have e : run_inc_machine true (inc_round (n + 1)) m
        = inc_step true n (inc_step true n (run_inc_machine true (inc_round n) m)) := by
      rw [inc_round, run_inc_machine_append]
      rfl
    rw [e]
    obtain ⟨k1, k2, k3, k4⟩ :=
      inc_step_twice_quiet n (run_inc_machine true (inc_round n) m) h1 h2
    refine ⟨k1, k2, ?_, ?_⟩
    · rw [inc_step_length, inc_step_length, h3]
    · intro s hs
      by_cases hsn : s = n
      · subst hsn
        exact k4 (by rw [h3]; omega)
      · exact k3 s (h4 s (by omega))

theorem inc_finish_done (m : inc_machine) (h : inc_inv m) :
    inc_all_done (run_inc_machine true (inc_finish m) m) = true := by
  have key : ∀ m1 : inc_machine, m1.owner = none →
      (∀ (s : Nat) (x : Int), m1.pcs[s]? ≠ some (inc_pc.loaded x)) →
      inc_all_done (run_inc_machine true (inc_round m1.pcs.length) m1) = true := by
    intro m1 ho hq
    obtain ⟨_, _, h3, h4⟩ := inc_round_done m1.pcs.length m1 ho hq (le_refl _)
    apply inc_all_done_of_getElem
    intro s hs
    exact h4 s (by rw [h3] at hs; exact hs)
  obtain ⟨c, o, l⟩ := m
  obtain ⟨_, ho⟩ := h
  simp only at ho
  cases o with
  | none => exact key _ rfl ho
  | some t =>
    obtain ⟨ho1, ho2⟩ := ho
    have ht : t < l.length := by
      rcases List.getElem?_eq_some_iff.mp ho1 with ⟨h1, _⟩
      exact h1
    have e : run_inc_machine true (inc_finish { cell := c, owner := some t, pcs := l })
          { cell := c, owner := some t, pcs := l }
        = run_inc_machine true (inc_round l.length)
            { cell := arch_atomic64_inc { counter := c.counter }, owner := none,
              pcs := l.set t inc_pc.done } := by
      simp [inc_finish, run_inc_machine, inc_step, inc_waits, ho1]
    rw [e]
    have := key { cell := arch_atomic64_inc { counter := c.counter }, owner := none,
                  pcs := l.set t inc_pc.done } rfl (by
      intro s x
      simp only
      by_cases hs : s = t
      · subst hs; simp [List.getElem?_set_self ht]
      · rw [List.getElem?_set_ne (Ne.symm hs)]; exact ho2 s x hs)
    simpa using this

theorem inc_alone (v : atomic64_t) :
    run_inc_machine true [0, 0] (inc_machine_init v 1)
      = { cell := arch_atomic64_inc v, owner := none, pcs := [inc_pc.done] } := by
  rfl

/-- C14: let `N` execution contexts, `N` below 2^63, each call `arch_atomic64_inc` once on a
cell initialised to 0, and let `sched` be any order in which the contexts take their steps,
a step being the load or the store of a context's locked `incq`.  At every moment the cell
holds the number of calls that have finished, and when `sched` lets every call finish the
cell holds exactly `N`.  Every `sched` can be continued so that every call finishes, and
the cell then holds `N`.  Without the lock prefix the same machine loses an update: the
order 0, 1, 0, 1 of two contexts finishes both calls and leaves 1, where with the lock
context 1 waits and the cell ends at 2.  A context stepping alone leaves what
`arch_atomic64_inc` leaves. -/
theorem concurrent_inc_no_lost_update (N : Nat) (sched : List Nat)
    (hN : (N : Int) < 9223372036854775808) :
    (run_inc_machine true sched (inc_machine_init (ATOMIC64_INIT 0) N)).cell.counter
      = (done_count (run_inc_machine true sched (inc_machine_init (ATOMIC64_INIT 0) N)).pcs
          : Int) ∧
    (inc_all_done (run_inc_machine true sched (inc_machine_init (ATOMIC64_INIT 0) N)) = true →
      (run_inc_machine true sched (inc_machine_init (ATOMIC64_INIT 0) N)).cell
        = { counter := N }) ∧
    inc_all_done (run_inc_machine true
      (sched ++ inc_finish (run_inc_machine true sched (inc_machine_init (ATOMIC64_INIT 0) N)))
      (inc_machine_init (ATOMIC64_INIT 0) N)) = true ∧
    (run_inc_machine true
      (sched ++ inc_finish (run_inc_machine true sched (inc_machine_init (ATOMIC64_INIT 0) N)))
      (inc_machine_init (ATOMIC64_INIT 0) N)).cell = { counter := N } ∧
    run_inc_machine false [0, 1, 0, 1] (inc_machine_init (ATOMIC64_INIT 0) 2)
      = { cell := { counter := 1 }, owner := none, pcs := [inc_pc.done, inc_pc.done] } ∧
    run_inc_machine true [0, 1, 0, 1, 1] (inc_machine_init (ATOMIC64_INIT 0) 2)
      = { cell := { counter := 2 }, owner := none, pcs := [inc_pc.done, inc_pc.done] } ∧
    (∀ v : atomic64_t, run_inc_machine true [0, 0] (inc_machine_init v 1)
      = { cell := arch_atomic64_inc v, owner := none, pcs := [inc_pc.done] }) := by
  have hlen0 : (inc_machine_init (ATOMIC64_INIT 0) N).pcs.length = N := by
    simp [inc_machine_init]
  have hfinal : ∀ s : List Nat,
      inc_all_done (run_inc_machine true s (inc_machine_init (ATOMIC64_INIT 0) N)) = true →
      (run_inc_machine true s (inc_machine_init (ATOMIC64_INIT 0) N)).cell
        = { counter := N } := by
    intro s hd
    obtain ⟨⟨hc, _⟩, hl⟩ := run_inc_machine_inv s (inc_machine_init (ATOMIC64_INIT 0) N)
      (by rw [hlen0]; exact hN) (inc_machine_init_inv N)
    have := done_count_all _ hd
    rw [this, hl, hlen0] at hc
    generalize (run_inc_machine true s (inc_machine_init (ATOMIC64_INIT 0) N)).cell = w at hc ⊢
    cases w
    simp only at hc
    rw [hc]
  have hinv := run_inc_machine_inv sched (inc_machine_init (ATOMIC64_INIT 0) N)
    (by rw [hlen0]; exact hN) (inc_machine_init_inv N)
  have hdone : inc_all_done (run_inc_machine true
      (sched ++ inc_finish (run_inc_machine true sched (inc_machine_init (ATOMIC64_INIT 0) N)))
      (inc_machine_init (ATOMIC64_INIT 0) N)) = true := by
    rw [run_inc_machine_append]
    exact inc_finish_done _ hinv.1
  exact ⟨hinv.1.1, hfinal sched, hdone, hfinal _ hdone, by decide, by decide, inc_alone⟩

/-- Witness of C14: three contexts stepping in the order 2, 0, 2, 1, 0, 1, 1, 0, 0, where
context 0 twice finds the location locked and waits, all finish and leave 3. -/
theorem concurrent_inc_no_lost_update_witness :
    ((3 : Nat) : Int) < 9223372036854775808 ∧
    inc_all_done (run_inc_machine true [2, 0, 2, 1, 0, 1, 1, 0, 0]
      (inc_machine_init (ATOMIC64_INIT 0) 3)) = true ∧
    (run_inc_machine true [2, 0, 2, 1, 0, 1, 1, 0, 0]
      (inc_machine_init (ATOMIC64_INIT 0) 3)).cell = { counter := (3 : Nat) } :=
  ⟨by decide, by decide,
    (concurrent_inc_no_lost_update 3 [2, 0, 2, 1, 0, 1, 1, 0, 0] (by decide)).2.1
      (by decide)⟩

/-! ## Increment or decrement with a fused test -/

theorem wrap64_pred_eq_zero_iff (c : Int) (hc : isS64 c) : wrap64 (c - 1) = 0 ↔ c = 1 := by
  unfold isS64 S64_MIN S64_MAX at hc
  unfold wrap64
  omega

theorem wrap64_succ_eq_zero_iff (c : Int) (hc : isS64 c) : wrap64 (c + 1) = 0 ↔ c = -1 := by
  unfold isS64 S64_MIN S64_MAX at hc
  unfold wrap64
  omega

/-- C15: for a signed 64-bit cell value `c`, `arch_atomic64_dec_and_test(v)` leaves the cell
equal to the wrapped `c - 1` and returns true exactly when the cell then reads 0, which is
exactly when `c = 1`; `arch_atomic64_inc_and_test(v)` leaves the wrapped `c + 1` and returns
true exactly when the cell then reads 0, which is exactly when `c = -1`. -/
theorem dec_inc_and_test_contract (v : atomic64_t) (hc : isS64 v.counter) :
    (arch_atomic64_dec_and_test v).2 = { counter := wrap64 (v.counter - 1) } ∧
    ((arch_atomic64_dec_and_test v).1 = true
      ↔ arch_atomic64_read (arch_atomic64_dec_and_test v).2 = 0) ∧
    ((arch_atomic64_dec_and_test v).1 = true ↔ v.counter = 1) ∧
    (arch_atomic64_inc_and_test v).2 = { counter := wrap64 (v.counter + 1) } ∧
    ((arch_atomic64_inc_and_test v).1 = true
      ↔ arch_atomic64_read (arch_atomic64_inc_and_test v).2 = 0) ∧
    ((arch_atomic64_inc_and_test v).1 = true ↔ v.counter = -1) := by
  have hd : (arch_atomic64_dec_and_test v).1 = true ↔ wrap64 (v.counter - 1) = 0 :=
    cc_e_holds_flags_of (wrap64 (v.counter - 1))
  have hi : (arch_atomic64_inc_and_test v).1 = true ↔ wrap64 (v.counter + 1) = 0 :=
    cc_e_holds_flags_of (wrap64 (v.counter + 1))
  exact ⟨rfl, hd, hd.trans (wrap64_pred_eq_zero_iff v.counter hc),
    rfl, hi, hi.trans (wrap64_succ_eq_zero_iff v.counter hc)⟩

/-- Witness of C15: on a cell holding 1, `arch_atomic64_dec_and_test` returns true and a read
then gives 0; on a cell holding -1, `arch_atomic64_inc_and_test` returns true and leaves 0;
from `S64_MIN` the decrement wraps to `S64_MAX` and returns false. -/
theorem dec_inc_and_test_contract_witness :
    isS64 (1 : Int) ∧
    ((arch_atomic64_dec_and_test { counter := 1 }).2 = { counter := wrap64 ((1 : Int) - 1) } ∧
      ((arch_atomic64_dec_and_test { counter := 1 }).1 = true
        ↔ arch_atomic64_read (arch_atomic64_dec_and_test { counter := 1 }).2 = 0) ∧
      ((arch_atomic64_dec_and_test { counter := 1 }).1 = true ↔ (1 : Int) = 1) ∧
      (arch_atomic64_inc_and_test { counter := 1 }).2 = { counter := wrap64 ((1 : Int) + 1) } ∧
      ((arch_atomic64_inc_and_test { counter := 1 }).1 = true
        ↔ arch_atomic64_read (arch_atomic64_inc_and_test { counter := 1 }).2 = 0) ∧
      ((arch_atomic64_inc_and_test { counter := 1 }).1 = true ↔ (1 : Int) = -1)) ∧
    (arch_atomic64_dec_and_test { counter := 1 }).1 = true ∧
    arch_atomic64_read (arch_atomic64_dec_and_test { counter := 1 }).2 = 0 ∧
    arch_atomic64_inc_and_test { counter := -1 } = (true, { counter := 0 }) ∧
    arch_atomic64_dec_and_test { counter := S64_MIN } = (false, { counter := S64_MAX }) :=
  ⟨by decide, dec_inc_and_test_contract { counter := 1 } (by decide),
    by decide, by decide, by decide, by decide⟩

/-! ## Exchange, store and load -/

/-- C16: `arch_atomic64_xchg(v, n)` returns the value `c` the cell held and leaves the cell
equal to `n`; `arch_atomic64_read` after `arch_atomic64_set(v, n)` returns `n`, whatever
the cell held before.  The read takes the cell by `const` pointer and yields only a value:
it is a function of the cell, the value it returns is the cell's, and reading again gives
the same value. -/
theorem xchg_set_read (v : atomic64_t) (n : Int) :
    arch_atomic64_xchg v n = (v.counter, { counter := n }) ∧
    arch_atomic64_read (arch_atomic64_xchg v n).2 = n ∧
    arch_atomic64_read (arch_atomic64_set v n) = n ∧
    arch_atomic64_set v n = { counter := n } ∧
    arch_atomic64_read v = v.counter ∧
    arch_atomic64_xchg (ATOMIC64_INIT 7) 9 = (7, { counter := 9 }) :=
  ⟨rfl, rfl, rfl, rfl, rfl, by decide⟩

/-! ## The retry loops make at most one attempt when nothing else writes -/

theorem fetch_op_loop_trace_erase (f : Int → Int) (fuel : Nat) :
    ∀ (v : atomic64_t) (val : Int),
      (fetch_op_loop_trace f fuel v val).map Prod.fst = fetch_op_loop f fuel v val := by
  induction fuel with
  | zero => intro v val; rfl
  | succ k ih =>
    intro v val
    rw [fetch_op_loop_trace, fetch_op_loop]
    generalize arch_atomic64_try_cmpxchg v val (f val) = r
    obtain ⟨b, val1, v1⟩ := r
    cases b
    · simp only [Option.map_map]
      rw [← ih v1 val1]
      rfl
    · rfl

theorem add_unless_loop_trace_erase (i u : Int) (fuel : Nat) :
    ∀ (v : atomic64_t) (val_old : Int),
      (add_unless_loop_trace fuel v val_old i u).map Prod.fst
        = add_unless_loop fuel v val_old i u := by
  induction fuel with
  | zero => intro v val_old; rfl
  | succ k ih =>
    intro v val_old
    rw [add_unless_loop_trace, add_unless_loop]
    by_cases h : val_old = u
    · rw [if_pos h, if_pos h]
      rfl
    · rw [if_neg h, if_neg h]
      generalize arch_atomic64_try_cmpxchg v val_old (wrap64 (val_old + i)) = r
      obtain ⟨b, val1, v1⟩ := r
      cases b
      · simp only [Option.map_map]
        rw [← ih v1 val1]
        rfl
      · rfl

theorem dec_if_positive_loop_trace_erase (fuel : Nat) :
    ∀ (v : atomic64_t) (val_old : Int),
      (dec_if_positive_loop_trace fuel v val_old).map Prod.fst
        = dec_if_positive_loop fuel v val_old := by
  induction fuel with
  | zero => intro v val_old; rfl
  | succ k ih =>
    intro v val_old
    rw [dec_if_positive_loop_trace, dec_if_positive_loop]
    by_cases h : wrap64 (val_old - 1) < 0
    · simp only [h, if_true]
      rfl
    · simp only [h, if_false]
      generalize arch_atomic64_try_cmpxchg v val_old (wrap64 (val_old - 1)) = r
      obtain ⟨b, val1, v1⟩ := r
      cases b
      · simp only [Option.map_map]
        rw [← ih v1 val1]
        rfl
      · rfl

theorem fetch_op_loop_trace_fresh (f : Int → Int) (fuel : Nat) (v : atomic64_t) :
    fetch_op_loop_trace f (fuel + 1) v v.counter
      = some ((v.counter, { counter := f v.counter }), [true]) := by
  rw [fetch_op_loop_trace]
  simp only [try_cmpxchg_self]

theorem add_unless_loop_trace_fresh (fuel : Nat) (v : atomic64_t) (i u : Int) :
    add_unless_loop_trace (fuel + 1) v v.counter i u
      = some (if v.counter = u then ((false, v), [])
              else ((true, { counter := wrap64 (v.counter + i) }), [true])) := by
  rw [add_unless_loop_trace]
  by_cases h : v.counter = u
  · simp only [h, if_true]
  · simp only [h, if_false, try_cmpxchg_self]

theorem dec_if_positive_loop_trace_fresh (fuel : Nat) (v : atomic64_t) :
    dec_if_positive_loop_trace (fuel + 1) v v.counter
      = some (if wrap64 (v.counter - 1) < 0 then ((wrap64 (v.counter - 1), v), [])
              else ((wrap64 (v.counter - 1), { counter := wrap64 (v.counter - 1) }),
                    [true])) := by
  rw [dec_if_positive_loop_trace]
  by_cases h : wrap64 (v.counter - 1) < 0
  · simp only [h, if_true]
  · simp only [h, if_false, try_cmpxchg_self]

/-- C17: with no other writer, every retry loop of the header returns within one pass, for
every cell value and every operand (any fuel of at least one pass gives a result).  The
list next to each result holds the outcomes of the `try_cmpxchg` attempts the call made:
`arch_atomic64_fetch_and`, `arch_atomic64_fetch_or` and `arch_atomic64_fetch_xor` make
exactly one attempt and it succeeds; `arch_atomic64_add_unless` makes none when the cell
holds `u` and otherwise one that succeeds; `arch_atomic64_dec_if_positive` makes none when
the wrapped `c - 1` is negative and otherwise one that succeeds.  Dropping the list from
an instrumented call gives the call itself, for every fuel. -/
theorem retry_loops_uncontended (fuel : Nat) (i u : Int) (v : atomic64_t) :
    fetch_and_trace (fuel + 1) i v
      = some ((v.counter, { counter := and64 v.counter i }), [true]) ∧
    fetch_or_trace (fuel + 1) i v
      = some ((v.counter, { counter := or64 v.counter i }), [true]) ∧
    fetch_xor_trace (fuel + 1) i v
      = some ((v.counter, { counter := xor64 v.counter i }), [true]) ∧
    add_unless_trace (fuel + 1) v i u
      = some (if v.counter = u then ((false, v), [])
              else ((true, { counter := wrap64 (v.counter + i) }), [true])) ∧
    dec_if_positive_trace (fuel + 1) v
      = some (if wrap64 (v.counter - 1) < 0 then ((wrap64 (v.counter - 1), v), [])
              else ((wrap64 (v.counter - 1), { counter := wrap64 (v.counter - 1) }),
                    [true])) ∧
    (∀ k : Nat, (fetch_and_trace k i v).map Prod.fst = arch_atomic64_fetch_and k i v) ∧
    (∀ k : Nat, (fetch_or_trace k i v).map Prod.fst = arch_atomic64_fetch_or k i v) ∧
    (∀ k : Nat, (fetch_xor_trace k i v).map Prod.fst = arch_atomic64_fetch_xor k i v) ∧
    (∀ k : Nat, (add_unless_trace k v i u).map Prod.fst = arch_atomic64_add_unless k v i u) ∧
    (∀ k : Nat, (dec_if_positive_trace k v).map Prod.fst
      = arch_atomic64_dec_if_positive k v) :=
  ⟨fetch_op_loop_trace_fresh _ fuel v, fetch_op_loop_trace_fresh _ fuel v,
    fetch_op_loop_trace_fresh _ fuel v, add_unless_loop_trace_fresh fuel v i u,
    dec_if_positive_loop_trace_fresh fuel v,
    fun k => fetch_op_loop_trace_erase _ k v _, fun k => fetch_op_loop_trace_erase _ k v _,
    fun k => fetch_op_loop_trace_erase _ k v _, fun k => add_unless_loop_trace_erase i u k v _,
    fun k => dec_if_positive_loop_trace_erase k v _⟩

/-! ## Subtraction through exchange-and-add -/

theorem wrap64_add_wrap_neg (c i : Int) : wrap64 (c + wrap64 (-i)) = wrap64 (c - i) := by
  unfold wrap64
  omega

/-- C18: for every cell value `c` and every `i`, `arch_atomic64_fetch_sub(i, v)` returns `c`
and leaves the cell equal to the wrapped `c - i`; `arch_atomic64_sub_return(i, v)` returns
the wrapped `c - i`, which is the value of the cell afterwards, and leaves the cell as
`arch_atomic64_sub(i, v)` does.  This covers `i = S64_MIN`, whose negation wraps to
itself: from 5 both leave 5 - 2^63. -/
theorem fetch_sub_sub_return (i : Int) (v : atomic64_t) :
    (arch_atomic64_fetch_sub i v).1 = v.counter ∧
    (arch_atomic64_fetch_sub i v).2 = { counter := wrap64 (v.counter - i) } ∧
    (arch_atomic64_sub_return i v).1 = wrap64 (v.counter - i) ∧
    (arch_atomic64_sub_return i v).1 = arch_atomic64_read (arch_atomic64_sub_return i v).2 ∧
    (arch_atomic64_sub_return i v).2 = arch_atomic64_sub i v ∧
    wrap64 (-S64_MIN) = S64_MIN ∧
    arch_atomic64_fetch_sub S64_MIN { counter := 5 }
      = (5, { counter := -9223372036854775803 }) ∧
    arch_atomic64_sub_return S64_MIN { counter := 5 }
      = (-9223372036854775803, { counter := -9223372036854775803 }) ∧
    arch_atomic64_sub S64_MIN { counter := 5 } = { counter := -9223372036854775803 } := by
  have hcell : ({ counter := wrap64 (v.counter + wrap64 (-i)) } : atomic64_t)
      = { counter := wrap64 (v.counter - i) } := by
    rw [wrap64_add_wrap_neg]
  refine ⟨rfl, hcell, rfl, ?_, hcell, by decide, by decide, by decide, by decide⟩
  exact (congrArg atomic64_t.counter hcell).symm

/-! ## Compare-exchange in its two forms -/

/-- C19: for every cell value, expected value `e` and new value `n`,
`arch_atomic64_try_cmpxchg` and `arch_atomic64_cmpxchg` leave the cell in the same state,
`arch_atomic64_try_cmpxchg` returns true exactly when the value `arch_atomic64_cmpxchg`
returns equals `e`, and the expected slot after `arch_atomic64_try_cmpxchg` holds the
value `arch_atomic64_cmpxchg` returns. -/
theorem try_cmpxchg_matches_cmpxchg (v : atomic64_t) (e n : Int) :
    (arch_atomic64_try_cmpxchg v e n).2.2 = (arch_atomic64_cmpxchg v e n).2 ∧
    ((arch_atomic64_try_cmpxchg v e n).1 = true ↔ (arch_atomic64_cmpxchg v e n).1 = e) ∧
    (arch_atomic64_try_cmpxchg v e n).2.1 = (arch_atomic64_cmpxchg v e n).1 := by
  unfold arch_atomic64_try_cmpxchg try_cmpxchg arch_atomic64_cmpxchg arch_cmpxchg
  by_cases h : v.counter = e
  · simp [h]
  · simp [h]

/-! ## Increment and decrement as addition and subtraction of one -/

/-- C20: `arch_atomic64_inc(v)` leaves the cell as `arch_atomic64_add(1, v)` does and
`arch_atomic64_dec(v)` as `arch_atomic64_sub(1, v)` does, for every cell value; at the
boundaries the increment of `S64_MAX` leaves `S64_MIN` and the decrement of `S64_MIN`
leaves `S64_MAX`.  `arch_atomic64_inc_return` and `arch_atomic64_dec_return` leave the
same cell as the increment and the decrement and return the value it then holds.  From
5, an increment followed by a read gives 6. -/
theorem inc_dec_as_add_sub (v : atomic64_t) :
    arch_atomic64_inc v = arch_atomic64_add 1 v ∧
    arch_atomic64_dec v = arch_atomic64_sub 1 v ∧
    arch_atomic64_inc { counter := S64_MAX } = { counter := S64_MIN } ∧
    arch_atomic64_dec { counter := S64_MIN } = { counter := S64_MAX } ∧
    (arch_atomic64_inc_return v).2 = arch_atomic64_inc v ∧
    (arch_atomic64_inc_return v).1 = arch_atomic64_read (arch_atomic64_inc v) ∧
    (arch_atomic64_dec_return v).2 = arch_atomic64_dec v ∧
    (arch_atomic64_dec_return v).1 = arch_atomic64_read (arch_atomic64_dec v) ∧
    arch_atomic64_read (arch_atomic64_inc (ATOMIC64_INIT 5)) = 6 ∧
    arch_atomic64_inc_return (ATOMIC64_INIT 5) = (6, { counter := 6 }) ∧
    arch_atomic64_dec_return (ATOMIC64_INIT 5) = (4, { counter := 4 }) := by
  have hcell : ({ counter := wrap64 (v.counter + wrap64 (-1)) } : atomic64_t)
      = { counter := wrap64 (v.counter - 1) } := by
    rw [wrap64_add_wrap_neg]
  exact ⟨rfl, rfl, by decide, by decide, rfl, rfl, hcell, rfl, by decide, by decide,
    by decide⟩
end Atomic64
